import Mathlib

/-!
Verification development for the `nsls2.general` Ansible collection.

We shallowly embed the Python sources:
  * `plugins/modules/github_vars_facts.py` — fact extraction (dict merge of
    parsed YAML/JSON files) and regex filtering of fact keys;
  * `plugins/modules/github_read_files_given_ext.py` — wrapping of results
    under a single variable name;
  * `plugins/module_utils/github_file_reader.py` — the `GitHubFileReader`
    class: branch lookup, tree listing with path filtering, blob fetching
    and base64 decoding, with an explicit request log and explicit state;
  * `plugins/filter/nsls2network.py` — the IPv4 network classifier.

Python dicts are modelled as ordered association lists with Python's
insertion-order / overwrite-in-place update semantics.  External
capabilities (the YAML/JSON parsers, the regex matcher, base64 decoding,
the HTTP transport) are parameters of the embedding, as the specification
scopes them out.
-/

set_option autoImplicit false

namespace NSLS2

/-! ### Python dictionaries as ordered association lists -/

/-- A Python dict with string keys: an ordered association list. -/
abbrev Dict (V : Type) : Type := List (String × V)

/-- First-match lookup (Python `d[k]` / `d.get(k)`). -/
def dictGet {V : Type} : Dict V → String → Option V
  | [], _ => none
  | p :: r, k => if p.1 = k then some p.2 else dictGet r k

/-- Python `k in d`. -/
def dictHasKey {V : Type} (d : Dict V) (k : String) : Bool :=
  d.any (fun p => p.1 = k)

/-- Python `d[k] = v`: overwrite in place if the key is present (keeping its
position), otherwise append at the end. -/
def dictSet {V : Type} (d : Dict V) (k : String) (v : V) : Dict V :=
  if dictHasKey d k then d.map (fun p => if p.1 = k then (k, v) else p)
  else d ++ [(k, v)]

/-- Python `d.update(m)`: set each entry of `m` into `d`, in `m`'s order. -/
def dictUpdate {V : Type} (d m : Dict V) : Dict V :=
  m.foldl (fun a p => dictSet a p.1 p.2) d

/-- The key list of a dict, in insertion order (Python `list(d)`). -/
def dictKeys {V : Type} (d : Dict V) : List String :=
  d.map Prod.fst

/-! ### Structured values

Parsed YAML/JSON documents take values in this type; merging treats them
as opaque wholes (no deep merge). -/

/-- A structured (YAML/JSON-like) value. -/
inductive Val : Type where
  | null : Val
  | bool : Bool → Val
  | num : Int → Val
  | str : String → Val
  | list : List Val → Val
  | map : List (String × Val) → Val

/-! ### `os.path.splitext`-style extension extraction -/

/-- The basename portion of a path: the characters after the last `/`. -/
def afterLastSlash (s : List Char) : List Char :=
  (s.reverse.takeWhile (fun c => c ≠ '/')).reverse

/-- Python `str.lower()` on the ASCII extensions at issue (character-wise, so it
evaluates by kernel reduction). -/
def strToLower (s : String) : String :=
  String.mk (s.data.map Char.toLower)

/-- Python `s.startswith(p)` (character-wise, so it evaluates by kernel
reduction). -/
def strStartsWith (s p : String) : Bool :=
  p.data.isPrefixOf s.data

/-- The extension of a path, as `os.path.splitext(p)[1]` computes it:
the suffix from the last dot of the basename, provided some non-dot
character precedes that dot within the basename; otherwise `""`. -/
def splitextExt (p : String) : String :=
  let base := afterLastSlash p.data
  let extRev := base.reverse.takeWhile (fun c => c ≠ '.')
  if extRev.length = base.length then ""
  else
    let stem := base.take (base.length - extRev.length - 1)
    if stem.any (fun c => c ≠ '.') then String.mk ('.' :: extRev.reverse) else ""

/-! ### FactExtractor (`github_vars_facts.main`, lines 205–210)

```python
data = {}
for n in c:
    if os.path.splitext(n["name"])[1].lower() in [".yaml", ".yml"]:
        data.update(yaml.safe_load(n["content"]))
    if os.path.splitext(n["name"])[1].lower() in [".json"]:
        data.update(json.loads(n["content"]))
```

The YAML/JSON parsers are capabilities ("parse text to a nested mapping"),
so a fetched file carries its parsed mapping directly. -/

/-- A fetched file: its name and its parsed top-level mapping. -/
structure FetchedFile : Type where
  name : String
  content : Dict Val

/-- Processing of one fetched file into the accumulator. -/
def extractStep (data : Dict Val) (n : FetchedFile) : Dict Val :=
  let data1 :=
    if strToLower (splitextExt n.name) = ".yaml" ∨ strToLower (splitextExt n.name) = ".yml" then
      dictUpdate data n.content
    else data
  if strToLower (splitextExt n.name) = ".json" then dictUpdate data1 n.content
  else data1

/-- The FactExtractor: fold the fetched files, in fetch order, into one
mapping by whole-top-level-key overwrite. -/
def extractFacts (files : List FetchedFile) : Dict Val :=
  files.foldl extractStep []

/-- Does the extractor recognize this file name's extension? -/
def recognizedName (name : String) : Bool :=
  (strToLower (splitextExt name) = ".yaml" || strToLower (splitextExt name) = ".yml")
    || strToLower (splitextExt name) = ".json"

/-- Does this fetched file (once parsed) define top-level key `k`, in a
format the extractor recognizes? -/
def definesKey (f : FetchedFile) (k : String) : Bool :=
  recognizedName f.name && (dictGet f.content k).isSome

/-! ### FactShaper, filter step (`github_vars_facts.main`, lines 212–226)

```python
if len(module.params["filters"]) > 0:
    filtered_data = {}
    for f in module.params["filters"]:
        for key, value in data.items():
            if re.match(f, key):
                filtered_data[key] = value
    filtered_keys = [k for k in data if k not in filtered_data]
    ... exit_json(ansible_facts=filtered_data, filtered_keys=filtered_keys ...)
... exit_json(ansible_facts=data, filtered_keys=[] ...)
```

`re.match` (anchored at the start of the string) is a capability, passed
as the parameter `rm : String → String → Bool` (pattern, string). -/

/-- One pass of the inner loop: set every entry of `data` whose key matches
pattern `f` into the accumulator `fd`. -/
def filterPass (rm : String → String → Bool) (data : Dict Val) (f : String)
    (fd : Dict Val) : Dict Val :=
  data.foldl (fun a p => if rm f p.1 then dictSet a p.1 p.2 else a) fd

/-- The `filtered_data` dict built by the nested loops. -/
def buildFiltered (rm : String → String → Bool) (filters : List String)
    (data : Dict Val) : Dict Val :=
  filters.foldl (fun fd f => filterPass rm data f fd) []

/-- The filter step: the kept mapping and the dropped key list. -/
def shapeFilter (rm : String → String → Bool) (filters : List String)
    (data : Dict Val) : Dict Val × List String :=
  if filters.length > 0 then
    let fd := buildFiltered rm filters data
    (fd, (dictKeys data).filter (fun k => ¬ dictHasKey fd k))
  else (data, [])

/-! ### FactShaper, wrap and key-prefix steps

The wrap step mirrors `github_read_files_given_ext.main`, lines 100–103:
the whole kept mapping becomes the sole value under the single key
`varname`. -/

/-- Wrap step: if a variable name is supplied, the entire mapping becomes
the sole value under that single key. -/
def shapeWrap (varname : Option String) (d : Dict Val) : Dict Val :=
  match varname with
  | some v => [(v, Val.map d)]
  | none => d

/-- Modelled from the spec: the FactShaper key-prefix step (spec §4.4
step 3) has no implementation under `src/` — only the filter and wrap
steps appear there.  Per the spec's words: "If `prefix` is supplied,
prepend it (string concatenation, not a separator-aware join) to every
top-level key of the (possibly wrapped) mapping." -/
def shapeKeyPfx (pfx : Option String) (d : Dict Val) : Dict Val :=
  match pfx with
  | some p => d.map (fun q => (p ++ q.1, q.2))
  | none => d

/-- Modelled from the spec: the full FactShaper (spec §4.4) — filter, then
wrap, then key-prefix, in that fixed order ("wrapping happens before
prefixing"). -/
def shape (rm : String → String → Bool) (filters : List String)
    (pfx varname : Option String) (facts : Dict Val) : Dict Val × List String :=
  let fr := shapeFilter rm filters facts
  (shapeKeyPfx pfx (shapeWrap varname fr.1), fr.2)

/-! ### NetworkClassifier (`plugins/filter/nsls2network.py`)

`IPv4Address(searchnet)` parses a dotted-quad string; a malformed string
raises `ValueError` (InvalidInput).  Note the constructor call sits inside
the loop body, so parsing only happens when at least one subnet is
examined.  CIDR membership (`address in network`) is mask equality on the
32-bit integer forms. -/

/-- Python `str.split(sep)` for a single-character separator, character-wise
(`acc` holds the current field, reversed). -/
def splitOnChar (sep : Char) : List Char → List Char → List (List Char)
  | [], acc => [acc.reverse]
  | c :: cs, acc =>
    if c = sep then acc.reverse :: splitOnChar sep cs []
    else splitOnChar sep cs (c :: acc)

/-- One octet of a dotted-quad address, as `ipaddress` parses it: one to
three decimal digits, no leading zero, value at most 255. -/
def parseOctet : List Char → Option Nat
  | [] => none
  | c :: cs =>
    if (c :: cs).length > 3 then none
    else if ¬ (c :: cs).all Char.isDigit then none
    else if c = '0' ∧ cs ≠ [] then none
    else
      let n := (c :: cs).foldl (fun a ch => a * 10 + (ch.toNat - 48)) 0
      if n ≤ 255 then some n else none

/-- Python `IPv4Address(s)` as a 32-bit integer, or `none` for a malformed
address (Python raises `ValueError` there). -/
def parseIPv4 (s : String) : Option Nat :=
  match splitOnChar '.' s.data [] with
  | [a, b, c, d] =>
    match parseOctet a, parseOctet b, parseOctet c, parseOctet d with
    | some x, some y, some z, some w => some (((x * 256 + y) * 256 + z) * 256 + w)
    | _, _, _, _ => none
  | _ => none

/-- A CIDR block: a 32-bit network address and a mask length. -/
structure Cidr : Type where
  addr : Nat
  mlen : Nat
deriving DecidableEq, Repr

/-- Membership `IPv4Address(a) in network`: the two addresses agree above the host
bits. -/
def cidrContains (c : Cidr) (a : Nat) : Bool :=
  a / 2 ^ (32 - c.mlen) = c.addr / 2 ^ (32 - c.mlen)

/-- One entry of the static table: the record holding the CIDR block
(`nsls2network[net][subnet]["subnet"]`). -/
structure SubnetRec : Type where
  subnet : Cidr
deriving DecidableEq, Repr

/-- The static network table: network name → subnet name → record, with
dict iteration order made explicit. -/
abbrev NetTable : Type := List (String × List (String × SubnetRec))

/-- The classifier's result record `{"net": net, "subnet": subnet}`. -/
structure NetSub : Type where
  net : String
  subnet : String
deriving DecidableEq, Repr

/-- The classifier's only failure: `ValueError` from `IPv4Address` on a
malformed address. -/
inductive FindErr : Type where
  | invalidInput : FindErr
deriving DecidableEq, Repr

/-- The inner loop of `find`: scan one network's subnets in order.  The
address is parsed afresh at each membership test, exactly as the source
constructs `IPv4Address(searchnet)` inside the loop condition. -/
def findInSubnets (searchnet : String) (net : String) :
    List (String × SubnetRec) → Except FindErr (Option NetSub)
  | [] => .ok none
  | (sn, sr) :: rest =>
    match parseIPv4 searchnet with
    | none => .error .invalidInput
    | some a =>
      if cidrContains sr.subnet a then .ok (some ⟨net, sn⟩)
      else findInSubnets searchnet net rest

/-- The module-level `find(searchnet)`: first (network, subnet) whose CIDR
block contains the address, in table order; `None` when no subnet
contains it. -/
def find : NetTable → String → Except FindErr (Option NetSub)
  | [], _ => .ok none
  | (net, subs) :: rest, searchnet =>
    match findInSubnets searchnet net subs with
    | .error e => .error e
    | .ok (some res) => .ok (some res)
    | .ok none => find rest searchnet

/-- What the wrapping accessor returns: the full record, or one projected
name. -/
inductive FindOut : Type where
  | record : NetSub → FindOut
  | name : String → FindOut
deriving DecidableEq, Repr

/-- Method `FilterModule.find(searchnet, mode)`: call the core `find` and project
the result according to `mode`; `None` stays `None`; errors are not
caught. -/
def FilterModule_find (table : NetTable) (searchnet : String)
    (mode : Option String) : Except FindErr (Option FindOut) :=
  match find table searchnet with
  | .error e => .error e
  | .ok (some res) =>
    if mode = some "net" then .ok (some (.name res.net))
    else if mode = some "subnet" then .ok (some (.name res.subnet))
    else .ok (some (.record res))
  | .ok none => .ok none

/-! ### `GitHubFileReader` (`plugins/module_utils/github_file_reader.py`)

The HTTP transport is a capability: an oracle `Net` mapping each URL to
the response the server would give.  Each embedded operation returns the
list of URLs it requested, in order, alongside its result, and the
reader's state (`self._contents`) is threaded explicitly.
`raise_for_status` raises `requests.HTTPError` exactly for status codes
400–599. -/

/-- An HTTP response: status code, reason phrase, JSON body. -/
structure HttpResp : Type where
  status : Nat
  reason : String
  body : Val

/-- The network oracle: the response each URL would produce. -/
abbrev Net : Type := String → HttpResp

/-- Errors the reader can raise: `requests.HTTPError` (TransportError),
`KeyError`, `TypeError`, and `RuntimeError("Invalid encoding")`
(DecodingError). -/
inductive GHErr : Type where
  | http : Nat → String → GHErr
  | key : String → GHErr
  | typeErr : GHErr
  | decoding : String → GHErr

/-- One accumulated file: `{"content": ..., "name": ...}` with decoded
raw bytes. -/
structure Content : Type where
  content : List Nat
  name : String

/-- The reader's instance state: constructor arguments plus the
`self._contents` accumulator (initially `[]`). -/
structure GitHubFileReader : Type where
  owner : String
  repo : String
  contents : List Content

/-- Python `j[k]` on a JSON value: field lookup on an object, `KeyError`
when absent, `TypeError` on a non-object. -/
def valIdx : Val → String → Except GHErr Val
  | .map l, k =>
    match dictGet l k with
    | some v => .ok v
    | none => .error (.key k)
  | _, _ => .error .typeErr

/-- Python `k in j` for an object (`False` on non-objects). -/
def valHasKey : Val → String → Bool
  | .map l, k => dictHasKey l k
  | _, _ => false

/-- Python `j == "s"`: equality with a string literal (never an error;
`False` on non-strings). -/
def valEqStr : Val → String → Bool
  | .str s, t => s = t
  | _, _ => false

/-- Use a JSON value where a string is required. -/
def asStr : Val → Except GHErr String
  | .str s => .ok s
  | _ => .error .typeErr

/-- Use a JSON value where an array is required. -/
def asArr : Val → Except GHErr (List Val)
  | .list l => .ok l
  | _ => .error .typeErr

/-- Method `_get_json`: perform the GET, `raise_for_status`, return the body. -/
def getJson (net : Net) (url : String) : Except GHErr Val :=
  let r := net url
  if 400 ≤ r.status ∧ r.status < 600 then .error (.http r.status r.reason)
  else .ok r.body

/-- The branch-metadata URL built by `_get_branch_sha`. -/
def branchUrl (r : GitHubFileReader) (branch : String) : String :=
  "https://api.github.com/repos/" ++ r.owner ++ "/" ++ r.repo ++ "/branches/" ++ branch

/-- The tree-listing URL built by `_get_tree` (note the source's literal
`recursive=f{_recursive}`, yielding `fTrue`/`fFalse`). -/
def treeUrl (r : GitHubFileReader) (sha : String) (recursive : Bool) : String :=
  "https://api.github.com/repos/" ++ r.owner ++ "/" ++ r.repo ++ "/git/trees/" ++ sha
    ++ "?recursive=f" ++ (if recursive then "True" else "False")

/-- Method `_get_branch_sha`: one GET against the branch URL, then extract
`j["commit"]["commit"]["tree"]["sha"]`. -/
def getBranchSha (net : Net) (r : GitHubFileReader) (branch : String) :
    List String × Except GHErr String :=
  ([branchUrl r branch],
    match getJson net (branchUrl r branch) with
    | .error e => .error e
    | .ok j =>
      match valIdx j "commit" with
      | .error e => .error e
      | .ok c1 =>
        match valIdx c1 "commit" with
        | .error e => .error e
        | .ok c2 =>
          match valIdx c2 "tree" with
          | .error e => .error e
          | .ok t =>
            match valIdx t "sha" with
            | .error e => .error e
            | .ok s => asStr s)

/-- Python `leaf["path"]` as a string. -/
def leafPath (leaf : Val) : Except GHErr String :=
  match valIdx leaf "path" with
  | .error e => .error e
  | .ok v => asStr v

/-- The list comprehension
`[leaf for leaf in j["tree"] if leaf["path"].startswith(path)]`. -/
def filterLeaves (p : String) : List Val → Except GHErr (List Val)
  | [] => .ok []
  | l :: ls =>
    match leafPath l with
    | .error e => .error e
    | .ok s =>
      match filterLeaves p ls with
      | .error e => .error e
      | .ok rest => .ok (if strStartsWith s p then l :: rest else rest)

/-- Method `_get_tree`: one GET against the tree URL, then the optional
path-prefix filter over `j["tree"]`. -/
def getTreeList (net : Net) (r : GitHubFileReader) (sha : String)
    (path : Option String) (recursive : Option Bool) :
    List String × Except GHErr (List Val) :=
  let url := treeUrl r sha (recursive.getD false)
  ([url],
    match getJson net url with
    | .error e => .error e
    | .ok j =>
      match valIdx j "tree" with
      | .error e => .error e
      | .ok t =>
        match asArr t with
        | .error e => .error e
        | .ok leaves =>
          match path with
          | some p => filterLeaves p leaves
          | none => .ok leaves)

/-- Method `_process_file`: skip silently when there is no `"content"` key;
otherwise decode base64 content (any other encoding tag raises
`RuntimeError("Invalid encoding")`) and append to the accumulator.
`b64` is the base64-decoding capability (string to raw bytes). -/
def processFile (b64 : String → List Nat) (contents : List Content) (j : Val)
    (name : Option String) : Except GHErr (List Content) :=
  if valHasKey j "content" then
    match valIdx j "encoding" with
    | .error e => .error e
    | .ok enc =>
      if valEqStr enc "base64" then
        match valIdx j "content" with
        | .error e => .error e
        | .ok c =>
          match asStr c with
          | .error e => .error e
          | .ok cstr =>
            let nm :=
              match name with
              | some n => n
              | none =>
                match valIdx j "name" with
                | .ok (.str s) => s
                | _ => ""
            .ok (contents ++ [⟨b64 cstr, nm⟩])
      else .error (.decoding "Invalid encoding")
  else .ok contents

/-- The result of a stateful reader operation: the URLs requested (in
order), the reader's state afterwards, and the value or error. -/
structure MRes (α : Type) : Type where
  log : List String
  st : GitHubFileReader
  val : Except GHErr α

/-- The `for file in files:` loop of `get_tree`: for each tree entry of
type `"blob"`, fetch its blob and process it. -/
def processLoop (net : Net) (b64 : String → List Nat) :
    GitHubFileReader → List Val → MRes Unit
  | r, [] => ⟨[], r, .ok ()⟩
  | r, file :: rest =>
    match valIdx file "type" with
    | .error e => ⟨[], r, .error e⟩
    | .ok t =>
      if valEqStr t "blob" then
        match valIdx file "url" with
        | .error e => ⟨[], r, .error e⟩
        | .ok u =>
          match asStr u with
          | .error e => ⟨[], r, .error e⟩
          | .ok url =>
            match getJson net url with
            | .error e => ⟨[url], r, .error e⟩
            | .ok blob =>
              match valIdx file "path" with
              | .error e => ⟨[url], r, .error e⟩
              | .ok pv =>
                match asStr pv with
                | .error e => ⟨[url], r, .error e⟩
                | .ok p =>
                  match processFile b64 r.contents blob (some p) with
                  | .error e => ⟨[url], r, .error e⟩
                  | .ok cs =>
                    let res := processLoop net b64 { r with contents := cs } rest
                    ⟨url :: res.log, res.st, res.val⟩
      else processLoop net b64 r rest

/-- Method `get_tree(branch, path, recursive)`: resolve the branch, list the
tree, process every blob entry, and return `self._contents`. -/
def get_tree (net : Net) (b64 : String → List Nat) (r : GitHubFileReader)
    (branch : String) (path : Option String) (recursive : Option Bool) :
    MRes (List Content) :=
  match getBranchSha net r branch with
  | (log1, .error e) => ⟨log1, r, .error e⟩
  | (log1, .ok sha) =>
    match getTreeList net r sha path recursive with
    | (log2, .error e) => ⟨log1 ++ log2, r, .error e⟩
    | (log2, .ok files) =>
      let res := processLoop net b64 r files
      ⟨log1 ++ log2 ++ res.log, res.st,
        match res.val with
        | .error e => .error e
        | .ok _ => .ok res.st.contents⟩

/-- Method `get_content()`: return the accumulator as it stands. -/
def get_content (r : GitHubFileReader) : List Content :=
  r.contents

/-! ### Concrete fixtures used by witnesses -/

/-- A fresh reader instance (`GitHubFileReader("o", "r")`). -/
def readerW : GitHubFileReader := ⟨"o", "r", []⟩

/-- A base64-decoding capability stub. -/
def b64W : String → List Nat := fun _ => []

/-- A server that answers every request with 404 Not Found. -/
def net404W : Net := fun _ => ⟨404, "Not Found", Val.null⟩

/-- A successful branch+tree response body with an empty tree. -/
def bodyOkW : Val :=
  Val.map
    [("commit", Val.map [("commit", Val.map [("tree", Val.map [("sha", Val.str "S")])])]),
     ("tree", Val.list [])]

/-- A server that answers every request with `bodyOkW`. -/
def netOkW : Net := fun _ => ⟨200, "OK", bodyOkW⟩

/-- A tree-listing response body with two entries. -/
def bodyTreeW : Val :=
  Val.map [("tree", Val.list [Val.map [("path", Val.str "a/b/x")],
                              Val.map [("path", Val.str "a/bc/x")]])]

/-- A server that answers every request with `bodyTreeW`. -/
def netTreeW : Net := fun _ => ⟨200, "OK", bodyTreeW⟩

/-- A blob response with base64 encoding. -/
def jB64W : Val :=
  Val.map [("content", Val.str "aGVsbG8="), ("encoding", Val.str "base64")]

/-- A blob response with no content body. -/
def jNoContentW : Val := Val.map [("sha", Val.str "x")]

/-- A blob response with the unsupported encoding tag `"none"`. -/
def jBadEncW : Val :=
  Val.map [("content", Val.str "abc"), ("encoding", Val.str "none")]

/-- A blob-type tree entry. -/
def fileEntryW : Val :=
  Val.map [("type", Val.str "blob"), ("url", Val.str "u1"), ("path", Val.str "a.yaml")]

/-- A server whose every blob response carries the unsupported encoding. -/
def netBadBlobW : Net := fun _ => ⟨200, "OK", jBadEncW⟩

/-! ## Dictionary lemmas -/

theorem dictGet_eq_none_of_not_hasKey {V : Type} (d : Dict V) (k : String)
    (h : dictHasKey d k = false) : dictGet d k = none := by
  induction d with
  | nil => rfl
  | cons p r ih =>
    simp only [dictHasKey, List.any_cons, Bool.or_eq_false_iff,
      decide_eq_false_iff_not] at h
    simpa [dictGet, h.1] using ih (by simpa [dictHasKey] using h.2)

theorem dictGet_append {V : Type} (d e : Dict V) (k : String) :
    dictGet (d ++ e) k =
      (match dictGet d k with
       | some v => some v
       | none => dictGet e k) := by
  induction d with
  | nil => simp [dictGet]
  | cons p r ih =>
    by_cases h : p.1 = k
    · simp [dictGet, h]
    · simp [dictGet, h, ih]

theorem dictGet_map_set_self {V : Type} (d : Dict V) (k : String) (v : V)
    (h : dictHasKey d k = true) :
    dictGet (d.map (fun p => if p.1 = k then (k, v) else p)) k = some v := by
  induction d with
  | nil => simp [dictHasKey] at h
  | cons p r ih =>
    by_cases hp : p.1 = k
    · simp [dictGet, hp]
    · simp only [dictHasKey, List.any_cons, Bool.or_eq_true,
        decide_eq_true_eq] at h
      rcases h with h | h
      · exact absurd h hp
      · simpa [dictGet, hp] using ih (by simpa [dictHasKey] using h)

theorem dictGet_map_set_ne {V : Type} (d : Dict V) {k k2 : String} (v : V)
    (h : k2 ≠ k) :
    dictGet (d.map (fun p => if p.1 = k then (k, v) else p)) k2 = dictGet d k2 := by
  induction d with
  | nil => rfl
  | cons p r ih =>
    by_cases hp : p.1 = k
    · have : k ≠ k2 := fun hk => h hk.symm
      simp [dictGet, hp, this, ih]
    · simp [dictGet, hp, ih]

theorem dictGet_set_self {V : Type} (d : Dict V) (k : String) (v : V) :
    dictGet (dictSet d k v) k = some v := by
  unfold dictSet
  by_cases h : dictHasKey d k
  · simpa [h] using dictGet_map_set_self d k v h
  · have hnone := dictGet_eq_none_of_not_hasKey d k (by simpa using h)
    simp [h, dictGet_append, hnone, dictGet]

theorem dictGet_set_ne {V : Type} (d : Dict V) (k k2 : String) (v : V)
    (h : k2 ≠ k) : dictGet (dictSet d k v) k2 = dictGet d k2 := by
  unfold dictSet
  by_cases hh : dictHasKey d k
  · simpa [hh] using dictGet_map_set_ne d v h
  · have hne : ¬ k = k2 := fun hk => h hk.symm
    simp only [hh, if_neg, Bool.false_eq_true, if_false, dictGet_append, dictGet,
      hne, ite_false]
    cases dictGet d k2 <;> rfl

theorem not_mem_keys_get_none {V : Type} {m : Dict V} {k : String}
    (h : k ∉ dictKeys m) : dictGet m k = none := by
  induction m with
  | nil => rfl
  | cons p r ih =>
    simp only [dictKeys, List.map_cons, List.mem_cons, not_or] at h
    have hp : p.1 ≠ k := fun hk => h.1 hk.symm
    simpa [dictGet, hp] using ih (by simpa [dictKeys] using h.2)

theorem dictGet_update {V : Type} (d m : Dict V) (k : String)
    (hm : (dictKeys m).Nodup) :
    dictGet (dictUpdate d m) k =
      (match dictGet m k with
       | some v => some v
       | none => dictGet d k) := by
  induction m generalizing d with
  | nil => simp [dictUpdate, dictGet]
  | cons p r ih =>
    simp only [dictKeys, List.map_cons, List.nodup_cons] at hm
    have step : dictUpdate d (p :: r) = dictUpdate (dictSet d p.1 p.2) r := by
      simp [dictUpdate]
    by_cases hk : p.1 = k
    · have hnot : k ∉ dictKeys r := by
        rw [← hk]; exact hm.1
      have hr : dictGet r k = none := not_mem_keys_get_none hnot
      rw [step, ih _ (by simpa [dictKeys] using hm.2)]
      simp [dictGet, hk, hr, hk ▸ dictGet_set_self d p.1 p.2]
    · rw [step, ih _ (by simpa [dictKeys] using hm.2)]
      have := dictGet_set_ne d p.1 k p.2 (fun hh => hk hh.symm)
      simp [dictGet, hk, this]

/-! ## C1: FactExtractor merge is last-write-wins in fetch order -/

theorem extractStep_eq (data : Dict Val) (n : FetchedFile) :
    extractStep data n =
      if recognizedName n.name then dictUpdate data n.content else data := by
  unfold extractStep recognizedName
  by_cases h1 : strToLower (splitextExt n.name) = ".yaml"
  · have h3 : strToLower (splitextExt n.name) ≠ ".json" := by simp [h1]
    simp [h1, h3]
  · by_cases h2 : strToLower (splitextExt n.name) = ".yml"
    · have h3 : strToLower (splitextExt n.name) ≠ ".json" := by simp [h2]
      simp [h1, h2, h3]
    · by_cases h3 : strToLower (splitextExt n.name) = ".json"
      · simp [h1, h2, h3]
      · simp [h1, h2, h3]

/-- C1: FactExtractor merge is last-write-wins in fetch order.  For any
sequence of fetched files (each parsing to a mapping without duplicate
top-level keys, as Python dicts guarantee), the extracted mapping's value
at any key `k` is exactly the whole value stored at `k` by the last file
in fetch order that is recognized (`.yaml`/`.yml`/`.json`) and defines
`k`; every earlier file's value at `k` is discarded entirely (the value
is taken wholesale from that last file — no deep merge). -/
theorem extract_lastWriteWins (files : List FetchedFile) (k : String)
    (h : ∀ f ∈ files, (dictKeys f.content).Nodup) :
    dictGet (extractFacts files) k =
      ((files.filter (fun f => definesKey f k)).getLast?).bind
        (fun f => dictGet f.content k) := by
  induction files using List.reverseRecOn with
  | nil => rfl
  | append_singleton l f ih =>
    have hl : ∀ g ∈ l, (dictKeys g.content).Nodup := fun g hg =>
      h g (List.mem_append_left _ hg)
    have hf : (dictKeys f.content).Nodup := h f (List.mem_append_right _ (by simp))
    have hstep : extractFacts (l ++ [f]) = extractStep (extractFacts l) f := by
      simp [extractFacts, List.foldl_append]
    rw [hstep, extractStep_eq]
    by_cases hrec : recognizedName f.name
    · rw [if_pos hrec, dictGet_update _ _ _ hf]
      cases hc : dictGet f.content k with
      | some v =>
        have hdef : definesKey f k = true := by
          simp [definesKey, hrec, hc]
        simp [List.filter_append, hdef, List.getLast?_concat, hc]
      | none =>
        have hdef : definesKey f k = false := by
          simp [definesKey, hc]
        simp [List.filter_append, hdef, ih hl]
    · have hdef : definesKey f k = false := by
        simp [definesKey, Bool.eq_false_iff.mpr hrec]
      rw [if_neg hrec]
      simp [List.filter_append, hdef, ih hl]

/-- Witness for C1: the spec's end-to-end example — `a.yaml` defining
`{x: 1}` then `b.json` defining `{x: 2, y: 3}`; the hypothesis (no
duplicate keys within a parsed file) holds and the theorem applies. -/
theorem extract_lastWriteWins_witness :
    (∀ f ∈ [(⟨"a.yaml", [("x", Val.num 1)]⟩ : FetchedFile),
            ⟨"b.json", [("x", Val.num 2), ("y", Val.num 3)]⟩],
        (dictKeys f.content).Nodup)
    ∧ dictGet (extractFacts [⟨"a.yaml", [("x", Val.num 1)]⟩,
          ⟨"b.json", [("x", Val.num 2), ("y", Val.num 3)]⟩]) "x" =
        ((([(⟨"a.yaml", [("x", Val.num 1)]⟩ : FetchedFile),
            ⟨"b.json", [("x", Val.num 2), ("y", Val.num 3)]⟩].filter
              (fun f => definesKey f "x")).getLast?).bind
          (fun f => dictGet f.content "x")) :=
  ⟨by decide,
   extract_lastWriteWins
     [⟨"a.yaml", [("x", Val.num 1)]⟩, ⟨"b.json", [("x", Val.num 2), ("y", Val.num 3)]⟩]
     "x" (by decide)⟩

/-! ## C2: filter completeness -/

theorem dictHasKey_iff_mem_keys {V : Type} (d : Dict V) (k : String) :
    dictHasKey d k = true ↔ k ∈ dictKeys d := by
  simp only [dictHasKey, List.any_eq_true, decide_eq_true_eq, dictKeys,
    List.mem_map]

theorem dictHasKey_map_set {V : Type} (d : Dict V) (k k2 : String) (v : V) :
    dictHasKey (d.map (fun p => if p.1 = k then (k, v) else p)) k2 =
      dictHasKey d k2 := by
  unfold dictHasKey
  rw [List.any_map]
  congr 1
  funext p
  by_cases hp : p.1 = k
  · simp [Function.comp, hp]
  · simp [Function.comp, hp]

theorem dictHasKey_set {V : Type} (d : Dict V) (k k2 : String) (v : V) :
    dictHasKey (dictSet d k v) k2 = (dictHasKey d k2 || k = k2) := by
  unfold dictSet
  by_cases h : dictHasKey d k
  · rw [if_pos h, dictHasKey_map_set]
    by_cases h2 : k = k2
    · subst h2; simp [h]
    · simp [h2]
  · rw [if_neg h]
    simp [dictHasKey, List.any_append]

theorem filterPass_hasKey (rm : String → String → Bool) (data : Dict Val)
    (f : String) (fd : Dict Val) (k : String) :
    dictHasKey (filterPass rm data f fd) k =
      (dictHasKey fd k || data.any (fun p => decide (p.1 = k) && rm f p.1)) := by
  induction data generalizing fd with
  | nil => simp [filterPass]
  | cons p rest ih =>
    have hstep : filterPass rm (p :: rest) f fd =
        filterPass rm rest f (if rm f p.1 then dictSet fd p.1 p.2 else fd) := by
      simp [filterPass]
    rw [hstep, ih]
    by_cases hrm : rm f p.1
    · rw [if_pos hrm, dictHasKey_set]
      simp [List.any_cons, hrm, Bool.or_assoc]
    · rw [if_neg hrm]
      simp [List.any_cons, Bool.eq_false_iff.mpr hrm]

theorem buildFiltered_hasKey (rm : String → String → Bool)
    (filters : List String) (data : Dict Val) (k : String) :
    dictHasKey (buildFiltered rm filters data) k =
      filters.any (fun f => data.any (fun p => decide (p.1 = k) && rm f p.1)) := by
  suffices hgen : ∀ fd, dictHasKey (filters.foldl (fun fd f => filterPass rm data f fd) fd) k =
      (dictHasKey fd k ||
        filters.any (fun f => data.any (fun p => decide (p.1 = k) && rm f p.1))) by
    simpa [buildFiltered, dictHasKey] using hgen []
  induction filters with
  | nil => intro fd; simp
  | cons f fs ih =>
    intro fd
    simp only [List.foldl_cons, ih, filterPass_hasKey, List.any_cons,
      Bool.or_assoc]

theorem buildFiltered_keys_sub (rm : String → String → Bool)
    (filters : List String) (data : Dict Val) (k : String)
    (h : dictHasKey (buildFiltered rm filters data) k = true) :
    k ∈ dictKeys data := by
  rw [buildFiltered_hasKey] at h
  simp only [List.any_eq_true, Bool.and_eq_true, decide_eq_true_eq] at h
  obtain ⟨f, _, p, hp, hk, _⟩ := h
  exact List.mem_map.mpr ⟨p, hp, hk⟩

/-- C2: filter completeness.  For every fact mapping and every filter
list, the kept keys and the dropped keys of the shaping step are
disjoint, and together they are exactly the top-level keys of the input;
with an empty filter list everything is kept and nothing is dropped. -/
theorem shapeFilter_complete (rm : String → String → Bool)
    (filters : List String) (data : Dict Val) :
    (∀ k, ¬ (k ∈ dictKeys (shapeFilter rm filters data).1 ∧
             k ∈ (shapeFilter rm filters data).2))
    ∧ (∀ k, (k ∈ dictKeys (shapeFilter rm filters data).1 ∨
             k ∈ (shapeFilter rm filters data).2) ↔ k ∈ dictKeys data)
    ∧ (filters = [] → shapeFilter rm filters data = (data, [])) := by
  by_cases hf : filters.length > 0
  · have hsf : shapeFilter rm filters data =
        (buildFiltered rm filters data,
         (dictKeys data).filter
           (fun k => ¬ dictHasKey (buildFiltered rm filters data) k)) := by
      simp [shapeFilter, hf]
    refine ⟨?_, ?_, ?_⟩
    · intro k ⟨h1, h2⟩
      rw [hsf] at h1 h2
      have hk : dictHasKey (buildFiltered rm filters data) k = true :=
        (dictHasKey_iff_mem_keys _ k).mpr h1
      simp only [List.mem_filter, decide_eq_true_eq] at h2
      exact h2.2 hk
    · intro k
      rw [hsf]
      constructor
      · rintro (h1 | h2)
        · exact buildFiltered_keys_sub rm filters data k
            ((dictHasKey_iff_mem_keys _ k).mpr h1)
        · simp only [List.mem_filter] at h2
          exact h2.1
      · intro hk
        by_cases hb : dictHasKey (buildFiltered rm filters data) k = true
        · exact Or.inl ((dictHasKey_iff_mem_keys _ k).mp hb)
        · exact Or.inr (by simp [List.mem_filter, hk, hb])
    · intro h0
      rw [h0] at hf
      simp at hf
  · have h0 : filters = [] := by
      cases filters with
      | nil => rfl
      | cons a l => simp at hf
    subst h0
    refine ⟨?_, ?_, fun _ => rfl⟩
    · intro k ⟨_, h2⟩
      simp [shapeFilter] at h2
    · intro k
      simp [shapeFilter]

/-- Witness for C2: with the empty filter list, the theorem's third
conjunct yields the kept/dropped pair directly. -/
theorem shapeFilter_complete_witness :
    shapeFilter (fun pat s => pat.isPrefixOf s) []
        [("x", Val.num 2), ("y", Val.num 3)] =
      ([("x", Val.num 2), ("y", Val.num 3)], []) :=
  (shapeFilter_complete (fun pat s => pat.isPrefixOf s) []
    [("x", Val.num 2), ("y", Val.num 3)]).2.2 rfl

/-! ## C3: key-prefix is applied after wrapping -/

/-- C3: with both a wrapper variable name and a key prefix supplied, the
shaped output has exactly one top-level key, the prefix concatenated to
the wrapper key — in particular `"p_"` and `"v"` give the sole key
`"p_v"`, never the original inner keys prefixed. -/
theorem shape_keyPfx_after_wrap (rm : String → String → Bool)
    (filters : List String) (facts : Dict Val) (p v : String) :
    dictKeys (shape rm filters (some p) (some v) facts).1 = [p ++ v]
    ∧ dictKeys (shape rm filters (some "p_") (some "v") facts).1 = ["p_v"] := by
  constructor <;> rfl

/-! ## C5: NetworkClassifier correctness on disjoint tables -/

theorem findInSubnets_found (A : String) (a : Nat) (net : String)
    (subs : List (String × SubnetRec)) (tgt : String) (sr : SubnetRec)
    (hA : parseIPv4 A = some a)
    (hmem : (tgt, sr) ∈ subs) (hin : cidrContains sr.subnet a = true)
    (huniq : ∀ sn r, (sn, r) ∈ subs → cidrContains r.subnet a = true → sn = tgt) :
    findInSubnets A net subs = .ok (some ⟨net, tgt⟩) := by
  induction subs with
  | nil => cases hmem
  | cons q rest ih =>
    obtain ⟨sn0, r0⟩ := q
    simp only [findInSubnets, hA]
    by_cases hc : cidrContains r0.subnet a = true
    · rw [if_pos hc]
      have hts : sn0 = tgt := huniq sn0 r0 (List.mem_cons_self _ _) hc
      rw [hts]
    · rw [if_neg hc]
      rcases List.mem_cons.mp hmem with heq | hrest
      · injection heq with h1 h2
        subst h1; subst h2
        exact absurd hin hc
      · exact ih hrest (fun sn r hr => huniq sn r (List.mem_cons_of_mem _ hr))

theorem findInSubnets_none (A : String) (a : Nat) (net : String)
    (subs : List (String × SubnetRec))
    (hA : parseIPv4 A = some a)
    (hnone : ∀ sn r, (sn, r) ∈ subs → cidrContains r.subnet a = false) :
    findInSubnets A net subs = .ok none := by
  induction subs with
  | nil => rfl
  | cons q rest ih =>
    obtain ⟨sn0, r0⟩ := q
    simp only [findInSubnets, hA]
    have hc := hnone sn0 r0 (List.mem_cons_self _ _)
    rw [if_neg (by simp [hc])]
    exact ih (fun sn r hr => hnone sn r (List.mem_cons_of_mem _ hr))

/-- C5: NetworkClassifier correctness.  For a textual IPv4 address `A`
parsing to the integer `a`: (1) if `a` lies in the CIDR block of the
table entry `(tgtNet, tgtSub)` and in no other subnet of the table (as
pairwise-disjoint tables guarantee for an address in exactly one
subnet), `find` returns exactly that (network, subnet) pair; (2) if `a`
lies in no subnet of the table, `find` returns not-found (`None`). -/
theorem nsls2network_find_correct (table : NetTable) (A : String) (a : Nat)
    (hA : parseIPv4 A = some a) :
    (∀ tgtNet tgtSub subs sr,
        (tgtNet, subs) ∈ table → (tgtSub, sr) ∈ subs →
        cidrContains sr.subnet a = true →
        (∀ e ∈ table, ∀ s ∈ e.2, cidrContains s.2.subnet a = true →
          e.1 = tgtNet ∧ s.1 = tgtSub) →
        find table A = .ok (some ⟨tgtNet, tgtSub⟩))
    ∧ ((∀ e ∈ table, ∀ s ∈ e.2, cidrContains s.2.subnet a = false) →
        find table A = .ok none) := by
  constructor
  · induction table with
    | nil => intro _ _ _ _ h; cases h
    | cons q rest ih =>
      obtain ⟨net0, subs0⟩ := q
      intro tgtNet tgtSub subs sr hmemT hmemS hin huniq
      rw [find]
      by_cases hc : ∃ sn r, (sn, r) ∈ subs0 ∧ cidrContains r.subnet a = true
      · obtain ⟨sn1, r1, hmem1, hin1⟩ := hc
        obtain ⟨h1, h2⟩ :=
          huniq (net0, subs0) (List.mem_cons_self _ _) (sn1, r1) hmem1 hin1
        subst h1
        subst h2
        have hfound : findInSubnets A net0 subs0 = .ok (some ⟨net0, sn1⟩) :=
          findInSubnets_found A a net0 subs0 sn1 r1 hA hmem1 hin1
            (fun sn r hr hcr =>
              (huniq (net0, subs0) (List.mem_cons_self _ _) (sn, r) hr hcr).2)
        simp only [hfound]
      · push_neg at hc
        have hnone : ∀ sn r, (sn, r) ∈ subs0 → cidrContains r.subnet a = false :=
          fun sn r hr => Bool.eq_false_iff.mpr (by simpa using hc sn r hr)
        simp only [findInSubnets_none A a net0 subs0 hA hnone]
        rcases List.mem_cons.mp hmemT with heq | hrest
        · exfalso
          injection heq with h1 h2
          subst h1; subst h2
          exact absurd hin (by simp [hnone tgtSub sr hmemS])
        · exact ih tgtNet tgtSub subs sr hrest hmemS hin
            (fun e he => huniq e (List.mem_cons_of_mem _ he))
  · induction table with
    | nil => intro _; rfl
    | cons q rest ih =>
      obtain ⟨net0, subs0⟩ := q
      intro hnone
      rw [find]
      simp only [findInSubnets_none A a net0 subs0 hA
        (fun sn r hr => hnone (net0, subs0) (List.mem_cons_self _ _) (sn, r) hr)]
      exact ih (fun e he => hnone e (List.mem_cons_of_mem _ he))

/-- Witness for C5: the address `10.65.0.7` lies in the single subnet
`10.65.0.0/24` of a one-entry table, and `find` returns its pair. -/
theorem nsls2network_find_correct_witness :
    parseIPv4 "10.65.0.7" = some 172032007
    ∧ find [("bl1", [("sub1", ⟨⟨172032000, 24⟩⟩)])] "10.65.0.7" =
        .ok (some ⟨"bl1", "sub1"⟩) :=
  ⟨by decide,
   (nsls2network_find_correct [("bl1", [("sub1", ⟨⟨172032000, 24⟩⟩)])]
      "10.65.0.7" 172032007 (by decide)).1
     "bl1" "sub1" [("sub1", ⟨⟨172032000, 24⟩⟩)] ⟨⟨172032000, 24⟩⟩
     (by decide) (by decide) (by decide) (by decide)⟩

/-! ## C8: projection property of the wrapping accessor -/

/-- C8: the accessor with `mode="net"` is exactly the network-name
projection of the core result, `mode="subnet"` the subnet-name
projection, and `mode=None` the full record; in every mode a core
not-found (`None`) stays not-found. -/
theorem filterModule_find_projection (table : NetTable) (A : String) :
    FilterModule_find table A (some "net")
        = Except.map (Option.map (fun r => FindOut.name r.net)) (find table A)
    ∧ FilterModule_find table A (some "subnet")
        = Except.map (Option.map (fun r => FindOut.name r.subnet)) (find table A)
    ∧ FilterModule_find table A none
        = Except.map (Option.map FindOut.record) (find table A) := by
  refine ⟨?_, ?_, ?_⟩ <;>
    · unfold FilterModule_find
      cases h : find table A with
      | error e => simp [Except.map]
      | ok o =>
        cases o with
        | none => simp [Except.map]
        | some res => simp [Except.map]

/-! ## C9: malformed addresses raise InvalidInput, uncaught -/

/-- C9: for any input string that is not a well-formed IPv4 address, and
any table containing at least one subnet entry (the real `nsls2network`
table is non-empty; with no subnet at all the address is never parsed),
the core `find` raises InvalidInput (`ValueError`), and the wrapping
accessor propagates it uncaught for every mode. -/
theorem find_invalidInput (table : NetTable) (A : String) (mode : Option String)
    (net : String) (subs : List (String × SubnetRec))
    (hbad : parseIPv4 A = none)
    (hmem : (net, subs) ∈ table) (hne : subs ≠ []) :
    find table A = .error .invalidInput
    ∧ FilterModule_find table A mode = .error .invalidInput := by
  have hcore : ∀ t : NetTable, (net, subs) ∈ t → find t A = .error .invalidInput := by
    intro t
    induction t with
    | nil => intro h; cases h
    | cons q rest ih =>
      intro hmem2
      obtain ⟨net0, subs0⟩ := q
      rw [find]
      cases subs0 with
      | nil =>
        simp only [findInSubnets]
        rcases List.mem_cons.mp hmem2 with heq | hrest
        · exfalso
          injection heq with h1 h2
          exact hne h2
        · exact ih hrest
      | cons q2 rest2 =>
        obtain ⟨sn0, r0⟩ := q2
        simp only [findInSubnets, hbad]
  refine ⟨hcore table hmem, ?_⟩
  unfold FilterModule_find
  rw [hcore table hmem]

/-- Witness for C9: `"999.1.2.3"` is malformed (an octet above 255), the
table has one subnet, and both entry points raise InvalidInput. -/
theorem find_invalidInput_witness :
    parseIPv4 "999.1.2.3" = none
    ∧ (find [("bl1", [("sub1", ⟨⟨172032000, 24⟩⟩)])] "999.1.2.3" =
          .error .invalidInput
        ∧ FilterModule_find [("bl1", [("sub1", ⟨⟨172032000, 24⟩⟩)])]
            "999.1.2.3" (some "net") = .error .invalidInput) :=
  ⟨by decide,
   find_invalidInput [("bl1", [("sub1", ⟨⟨172032000, 24⟩⟩)])] "999.1.2.3"
     (some "net") "bl1" [("sub1", ⟨⟨172032000, 24⟩⟩)]
     (by decide) (by decide) (by decide)⟩

/-! ## C4: transport failure of the branch lookup is atomic -/

/-- C4: when the branch-metadata lookup answers with an HTTP error status
(the 400–599 range `raise_for_status` raises on, e.g. 404), `get_tree`
raises the transport error carrying that status code and reason, the
only URL ever requested is the branch URL (no tree listing, no blob
fetch), and the reader's state is untouched (no partial result). -/
theorem fetch_transport_atomic (net : Net) (b64 : String → List Nat)
    (r : GitHubFileReader) (branch : String) (path : Option String)
    (recursive : Option Bool)
    (h4 : 400 ≤ (net (branchUrl r branch)).status)
    (h6 : (net (branchUrl r branch)).status < 600) :
    get_tree net b64 r branch path recursive =
      ⟨[branchUrl r branch], r,
        .error (.http (net (branchUrl r branch)).status
          (net (branchUrl r branch)).reason)⟩ := by
  unfold get_tree getBranchSha getJson
  simp [h4, h6]

/-- Witness for C4: a server answering 404 Not Found to everything. -/
theorem fetch_transport_atomic_witness :
    400 ≤ (net404W (branchUrl readerW "main")).status
    ∧ get_tree net404W b64W readerW "main" none none =
        ⟨[branchUrl readerW "main"], readerW, .error (.http 404 "Not Found")⟩ :=
  ⟨by decide,
   fetch_transport_atomic net404W b64W readerW "main" none none
     (by decide) (by decide)⟩

/-! ## C6: blob decoding, unsupported encodings, and silent skips -/

/-- C6: a blob response with no content body is silently skipped (the
accumulator is returned unchanged, no error); one with base64 encoding
has its content decoded to raw bytes and appended; one with any other
encoding tag raises the fatal DecodingError — and inside the processing
loop such a blob stops the batch: the loop requests only that blob's
URL, leaves the state untouched, and never touches the remaining
files. -/
theorem blob_decoding (b64 : String → List Nat) :
    (∀ contents j name, valHasKey j "content" = false →
        processFile b64 contents j name = .ok contents)
    ∧ (∀ contents j name c, valHasKey j "content" = true →
        valIdx j "encoding" = .ok (.str "base64") →
        valIdx j "content" = .ok (.str c) →
        processFile b64 contents j (some name) =
          .ok (contents ++ [⟨b64 c, name⟩]))
    ∧ (∀ contents j name enc, valHasKey j "content" = true →
        valIdx j "encoding" = .ok enc → valEqStr enc "base64" = false →
        processFile b64 contents j name = .error (.decoding "Invalid encoding"))
    ∧ (∀ (net : Net) (r : GitHubFileReader) (file : Val) (rest : List Val)
          (url : String) (blob : Val) (p : String) (enc : Val),
        valIdx file "type" = .ok (.str "blob") →
        valIdx file "url" = .ok (.str url) →
        getJson net url = .ok blob →
        valIdx file "path" = .ok (.str p) →
        valHasKey blob "content" = true →
        valIdx blob "encoding" = .ok enc →
        valEqStr enc "base64" = false →
        processLoop net b64 r (file :: rest) =
          ⟨[url], r, .error (.decoding "Invalid encoding")⟩) := by
  refine ⟨?_, ?_, ?_, ?_⟩
  · intro contents j name h
    simp [processFile, h]
  · intro contents j name c h he hc
    simp [processFile, h, he, hc, valEqStr, asStr]
  · intro contents j name enc h he hne
    simp [processFile, h, he, hne]
  · intro net r file rest url blob p enc ht hu hb hp hhk he hne
    have hpf : processFile b64 r.contents blob (some p) =
        .error (.decoding "Invalid encoding") := by
      simp [processFile, hhk, he, hne]
    simp [processLoop, ht, hu, hb, hp, hpf, valEqStr, asStr]

/-- Witness for C6: the three blob shapes and a two-entry batch whose
first blob has encoding `"none"` — the second entry is never reached. -/
theorem blob_decoding_witness :
    valHasKey jB64W "content" = true
    ∧ processFile b64W [] jNoContentW none = .ok []
    ∧ processFile b64W [] jB64W (some "a.yaml") =
        .ok [⟨b64W "aGVsbG8=", "a.yaml"⟩]
    ∧ processFile b64W [] jBadEncW none = .error (.decoding "Invalid encoding")
    ∧ processLoop netBadBlobW b64W readerW [fileEntryW, fileEntryW] =
        ⟨["u1"], readerW, .error (.decoding "Invalid encoding")⟩ :=
  ⟨rfl,
   (blob_decoding b64W).1 [] jNoContentW none rfl,
   (blob_decoding b64W).2.1 [] jB64W "a.yaml" "aGVsbG8=" rfl rfl rfl,
   (blob_decoding b64W).2.2.1 [] jBadEncW none (Val.str "none") rfl rfl rfl,
   (blob_decoding b64W).2.2.2 netBadBlobW readerW fileEntryW [fileEntryW]
     "u1" jBadEncW "a.yaml" (Val.str "none") rfl rfl rfl rfl rfl rfl rfl⟩

/-! ## C7: path filtering of the tree listing is a literal prefix match -/

theorem filterLeaves_eq (p : String) (leaves : List Val) (f : Val → String)
    (h : ∀ l ∈ leaves, leafPath l = .ok (f l)) :
    filterLeaves p leaves =
      .ok (leaves.filter (fun l => strStartsWith (f l) p)) := by
  induction leaves with
  | nil => rfl
  | cons l ls ih =>
    have hl := h l (List.mem_cons_self _ _)
    have hrest := ih (fun x hx => h x (List.mem_cons_of_mem _ hx))
    by_cases hs : strStartsWith (f l) p
    · simp [filterLeaves, hl, hrest, List.filter_cons, hs]
    · simp [filterLeaves, hl, hrest, List.filter_cons, hs]

/-- C7: the tree listing's path filter is a literal string-prefix match:
with a path supplied, exactly the entries whose path string starts with
that prefix are retained (in particular the leading-substring false
positive — `"a/bc/x"` is retained for `path="a/b"`); with no path, all
entries are retained. -/
theorem tree_path_filter (net : Net) (r : GitHubFileReader) (sha : String)
    (recursive : Option Bool) (j : Val) (leaves : List Val)
    (hj : getJson net (treeUrl r sha (recursive.getD false)) = .ok j)
    (ht : valIdx j "tree" = .ok (.list leaves)) :
    getTreeList net r sha none recursive
        = ([treeUrl r sha (recursive.getD false)], .ok leaves)
    ∧ (∀ (p : String) (f : Val → String),
        (∀ l ∈ leaves, leafPath l = .ok (f l)) →
        getTreeList net r sha (some p) recursive
          = ([treeUrl r sha (recursive.getD false)],
             .ok (leaves.filter (fun l => strStartsWith (f l) p))))
    ∧ filterLeaves "a/b" [Val.map [("path", Val.str "a/bc/x")]]
        = .ok [Val.map [("path", Val.str "a/bc/x")]] := by
  refine ⟨?_, ?_, ?_⟩
  · simp [getTreeList, hj, ht, asArr]
  · intro p f hf
    simp [getTreeList, hj, ht, asArr, filterLeaves_eq p leaves f hf]
  · rfl

/-- Witness for C7: a server listing the two paths `a/b/x` and `a/bc/x`;
with no path supplied both entries are retained. -/
theorem tree_path_filter_witness :
    getJson netTreeW (treeUrl readerW "S" false) = .ok bodyTreeW
    ∧ getTreeList netTreeW readerW "S" none none
        = ([treeUrl readerW "S" false],
           .ok [Val.map [("path", Val.str "a/b/x")],
                Val.map [("path", Val.str "a/bc/x")]]) :=
  ⟨rfl,
   (tree_path_filter netTreeW readerW "S" none bodyTreeW
      [Val.map [("path", Val.str "a/b/x")], Val.map [("path", Val.str "a/bc/x")]]
      rfl rfl).1⟩

/-! ## C10: the contents accumulator is never cleared -/

theorem processFile_extends (b64 : String → List Nat) (cs : List Content)
    (j : Val) (nm : Option String) (cs2 : List Content)
    (h : processFile b64 cs j nm = .ok cs2) :
    ∃ l, cs2 = cs ++ l := by
  unfold processFile at h
  split at h
  · split at h
    · cases h
    · split at h
      · split at h
        · cases h
        · split at h
          · cases h
          · injection h with h2
            exact ⟨_, h2.symm⟩
      · cases h
  · injection h with h2
    exact ⟨[], by rw [← h2, List.append_nil]⟩

theorem processLoop_extends (net : Net) (b64 : String → List Nat) :
    ∀ (files : List Val) (r : GitHubFileReader),
      ∃ l, (processLoop net b64 r files).st.contents = r.contents ++ l := by
  intro files
  induction files with
  | nil => intro r; exact ⟨[], by simp [processLoop]⟩
  | cons file rest ih =>
    intro r
    cases h1 : valIdx file "type" with
    | error e => exact ⟨[], by simp [processLoop, h1]⟩
    | ok t =>
      by_cases h2 : valEqStr t "blob"
      · cases h3 : valIdx file "url" with
        | error e => exact ⟨[], by simp [processLoop, h1, h2, h3]⟩
        | ok u =>
          cases h4 : asStr u with
          | error e => exact ⟨[], by simp [processLoop, h1, h2, h3, h4]⟩
          | ok url =>
            cases h5 : getJson net url with
            | error e => exact ⟨[], by simp [processLoop, h1, h2, h3, h4, h5]⟩
            | ok blob =>
              cases h6 : valIdx file "path" with
              | error e => exact ⟨[], by simp [processLoop, h1, h2, h3, h4, h5, h6]⟩
              | ok pv =>
                cases h7 : asStr pv with
                | error e =>
                  exact ⟨[], by simp [processLoop, h1, h2, h3, h4, h5, h6, h7]⟩
                | ok p =>
                  cases h8 : processFile b64 r.contents blob (some p) with
                  | error e =>
                    exact ⟨[], by simp [processLoop, h1, h2, h3, h4, h5, h6, h7, h8]⟩
                  | ok cs =>
                    obtain ⟨l1, hl1⟩ := processFile_extends b64 r.contents blob (some p) cs h8
                    obtain ⟨l2, hl2⟩ := ih { r with contents := cs }
                    refine ⟨l1 ++ l2, ?_⟩
                    simp only [processLoop, h1, h2, h3, h4, h5, h6, h7, h8, if_true]
                    simpa [hl1, List.append_assoc] using hl2
      · have h2f : valEqStr t "blob" = false := Bool.eq_false_iff.mpr h2
        obtain ⟨l, hl⟩ := ih r
        exact ⟨l, by simpa [processLoop, h1, h2f] using hl⟩

theorem get_tree_eq_error1 (net : Net) (b64 : String → List Nat)
    (r : GitHubFileReader) (branch : String) (path : Option String)
    (recursive : Option Bool) (log1 : List String) (e : GHErr)
    (hb : getBranchSha net r branch = (log1, .error e)) :
    get_tree net b64 r branch path recursive = ⟨log1, r, .error e⟩ := by
  unfold get_tree
  simp only [hb]

theorem get_tree_eq_error2 (net : Net) (b64 : String → List Nat)
    (r : GitHubFileReader) (branch : String) (path : Option String)
    (recursive : Option Bool) (log1 : List String) (sha : String)
    (log2 : List String) (e : GHErr)
    (hb : getBranchSha net r branch = (log1, .ok sha))
    (ht : getTreeList net r sha path recursive = (log2, .error e)) :
    get_tree net b64 r branch path recursive = ⟨log1 ++ log2, r, .error e⟩ := by
  unfold get_tree
  simp only [hb, ht]

theorem get_tree_eq_ok (net : Net) (b64 : String → List Nat)
    (r : GitHubFileReader) (branch : String) (path : Option String)
    (recursive : Option Bool) (log1 : List String) (sha : String)
    (log2 : List String) (files : List Val)
    (hb : getBranchSha net r branch = (log1, .ok sha))
    (ht : getTreeList net r sha path recursive = (log2, .ok files)) :
    get_tree net b64 r branch path recursive =
      ⟨log1 ++ log2 ++ (processLoop net b64 r files).log,
       (processLoop net b64 r files).st,
       match (processLoop net b64 r files).val with
       | .error e => .error e
       | .ok _ => .ok (processLoop net b64 r files).st.contents⟩ := by
  unfold get_tree
  simp only [hb, ht]

theorem get_tree_st_extends (net : Net) (b64 : String → List Nat)
    (r : GitHubFileReader) (branch : String) (path : Option String)
    (recursive : Option Bool) :
    ∃ l, (get_tree net b64 r branch path recursive).st.contents =
      r.contents ++ l := by
  cases hb : getBranchSha net r branch with
  | mk log1 v1 =>
    cases v1 with
    | error e =>
      exact ⟨[], by
        simp [get_tree_eq_error1 net b64 r branch path recursive log1 e hb]⟩
    | ok sha =>
      cases ht : getTreeList net r sha path recursive with
      | mk log2 v2 =>
        cases v2 with
        | error e =>
          exact ⟨[], by
            simp [get_tree_eq_error2 net b64 r branch path recursive
              log1 sha log2 e hb ht]⟩
        | ok files =>
          obtain ⟨l, hl⟩ := processLoop_extends net b64 files r
          exact ⟨l, by
            simp only [get_tree_eq_ok net b64 r branch path recursive
              log1 sha log2 files hb ht]
            exact hl⟩

theorem get_tree_ok_val (net : Net) (b64 : String → List Nat)
    (r : GitHubFileReader) (branch : String) (path : Option String)
    (recursive : Option Bool) (cs : List Content)
    (h : (get_tree net b64 r branch path recursive).val = .ok cs) :
    cs = (get_tree net b64 r branch path recursive).st.contents := by
  cases hb : getBranchSha net r branch with
  | mk log1 v1 =>
    cases v1 with
    | error e =>
      rw [get_tree_eq_error1 net b64 r branch path recursive log1 e hb] at h
      simp at h
    | ok sha =>
      cases ht : getTreeList net r sha path recursive with
      | mk log2 v2 =>
        cases v2 with
        | error e =>
          rw [get_tree_eq_error2 net b64 r branch path recursive
            log1 sha log2 e hb ht] at h
          simp at h
        | ok files =>
          rw [get_tree_eq_ok net b64 r branch path recursive
            log1 sha log2 files hb ht] at h ⊢
          cases hv : (processLoop net b64 r files).val with
          | error e =>
            simp only [hv] at h
            cases h
          | ok u =>
            simp only [hv] at h
            simpa using h.symm

/-- C10: the reader's contents accumulator is never cleared.  Every
`get_tree` call only ever appends to `self._contents` and, on success,
returns that same accumulated list; hence a second `get_tree` on the
same instance returns a list extending the first call's result (both
calls' files), and `get_content` always returns everything accumulated
so far. -/
theorem contents_accumulator_monotone (net : Net) (b64 : String → List Nat) :
    (∀ r branch path recursive,
        ∃ l, (get_tree net b64 r branch path recursive).st.contents =
          r.contents ++ l)
    ∧ (∀ r branch path recursive cs,
        (get_tree net b64 r branch path recursive).val = .ok cs →
        cs = (get_tree net b64 r branch path recursive).st.contents)
    ∧ (∀ r b1 p1 rc1 b2 p2 rc2 cs1 cs2,
        (get_tree net b64 r b1 p1 rc1).val = .ok cs1 →
        (get_tree net b64 (get_tree net b64 r b1 p1 rc1).st b2 p2 rc2).val = .ok cs2 →
        ∃ l, cs2 = cs1 ++ l)
    ∧ (∀ r, get_content r = r.contents) := by
  refine ⟨get_tree_st_extends net b64, get_tree_ok_val net b64, ?_, fun _ => rfl⟩
  intro r b1 p1 rc1 b2 p2 rc2 cs1 cs2 h1 h2
  obtain ⟨l, hl⟩ :=
    get_tree_st_extends net b64 (get_tree net b64 r b1 p1 rc1).st b2 p2 rc2
  refine ⟨l, ?_⟩
  rw [get_tree_ok_val net b64 _ b2 p2 rc2 cs2 h2, hl,
    ← get_tree_ok_val net b64 r b1 p1 rc1 cs1 h1]

/-- Witness for C10: a server with an empty tree; both successive
`get_tree` calls succeed with the (empty) accumulated list, and the
second call's result extends the first's. -/
theorem contents_accumulator_monotone_witness :
    (get_tree netOkW b64W readerW "main" none none).val = .ok []
    ∧ (∃ l, ([] : List Content) = [] ++ l) :=
  ⟨rfl,
   (contents_accumulator_monotone netOkW b64W).2.2.1 readerW "main" none none
     "main" none none [] [] rfl rfl⟩

end NSLS2
